import Mathlib

/-!
# MoneroWebCoordinator — verification of the core data model

Shallow embedding of the coordinator's core (rate limiter, session
registry, job factory, target arithmetic, target comparison) translated
from the Rust sources (`src/ratelimit.rs`, `src/session.rs`,
`src/jobs.rs`, `src/validator.rs`), together with theorems settling the
specified properties.

Conventions of the embedding:
* machine integers are `Nat` (with explicit `% 2 ^ 64` where the source
  wraps a `u64`);
* `Instant` timestamps and `Duration`s are `Nat` values in a common
  abstract time unit per component (seconds for the rate limiter, whose
  windows are built with `Duration::from_secs`; milliseconds for job
  staleness);
* Rust `String`s that the code treats as byte sequences are `List Nat`
  of byte values; `IpAddr` is abstracted to `Nat`;
* `DashMap` is an association list with distinct keys;
* nondeterminism (UUID generation, the current instant) is passed in as
  an explicit argument.
-/

/-! ## Rate limiter (`src/ratelimit.rs`) -/

/-- `RateLimiter` from `ratelimit.rs`: a sliding window of admission
timestamps.  `timestamps` is the `VecDeque`, front at the head. -/
structure RateLimiter where
  window : Nat
  max_count : Nat
  timestamps : List Nat
deriving Repr, DecidableEq

/-- `RateLimiter::new(max_count, window_secs)`. -/
def RateLimiter.new (max_count : Nat) (window_secs : Nat) : RateLimiter :=
  { window := window_secs, max_count := max_count, timestamps := [] }

/-- The eviction loop at the head of `RateLimiter::check`: pop from the
front while the front timestamp is `< now - window`. -/
def RateLimiter.evict (r : RateLimiter) (now : Nat) : RateLimiter :=
  { r with timestamps := r.timestamps.dropWhile (fun t => t < now - r.window) }

/-- `RateLimiter::check`: evict, deny when the stored count has reached
`max_count`, otherwise append the current timestamp and admit. -/
def RateLimiter.check (r : RateLimiter) (now : Nat) : Bool × RateLimiter :=
  let r' := r.evict now
  if r'.timestamps.length ≥ r'.max_count then (false, r')
  else (true, { r' with timestamps := r'.timestamps ++ [now] })

/-- `RateLimiter::remaining`: `max_count.saturating_sub(len)`. -/
def RateLimiter.remaining (r : RateLimiter) : Nat :=
  r.max_count - r.timestamps.length

/-- Run a sequence of `check` calls at the given instants, collecting the
admit/deny decisions. -/
def runChecks : RateLimiter → List Nat → List Bool × RateLimiter
  | r, [] => ([], r)
  | r, t :: ts =>
    let p := r.check t
    let q := runChecks p.2 ts
    (p.1 :: q.1, q.2)

example : (runChecks (RateLimiter.new 2 10) [0, 1, 2]).1 = [true, true, false] := by decide
example : (runChecks (RateLimiter.new 2 10) [0, 1, 2, 13]).1 = [true, true, false, true] := by decide
example : (RateLimiter.new 3 10).remaining = 3 := by decide

/-! ## Association-list model of `DashMap` -/

/-- `DashMap` lookup. -/
def alistLookup {α β : Type} [DecidableEq α] (k : α) : List (α × β) → Option β
  | [] => none
  | (a, b) :: l => if k = a then some b else alistLookup k l

/-- `DashMap::insert`: replace the value when the key is present,
otherwise append the pair. -/
def alistInsert {α β : Type} [DecidableEq α] (k : α) (v : β) : List (α × β) → List (α × β)
  | [] => [(k, v)]
  | (a, b) :: l => if k = a then (k, v) :: l else (a, b) :: alistInsert k v l

/-- `DashMap::remove` (the removed entry discarded). -/
def alistRemove {α β : Type} [DecidableEq α] (k : α) : List (α × β) → List (α × β)
  | [] => []
  | (a, b) :: l => if k = a then l else (a, b) :: alistRemove k l

/-! ## Sessions (`src/session.rs`) -/

/-- `SessionState` from `session.rs`. -/
inductive SessionState where
  | Connected
  | Ready
  | Closed
deriving Repr, DecidableEq

/-- `SessionLimits` from `ratelimit.rs`. -/
structure SessionLimits where
  messages : RateLimiter
  submits : RateLimiter
deriving Repr, DecidableEq

/-- `SessionLimits::new`: a per-second message limiter and a per-minute
submit limiter (`RateLimiter::new(messages_per_second, 1)` and
`RateLimiter::new(submits_per_minute, 60)`). -/
def SessionLimits.new (messages_per_second : Nat) (submits_per_minute : Nat) : SessionLimits :=
  { messages := RateLimiter.new messages_per_second 1
    submits := RateLimiter.new submits_per_minute 60 }

/-- `Session` from `session.rs`.  The freshly generated UUID string and
the current instant enter as arguments of `Session.new`. -/
structure Session where
  id : String
  ip : Nat
  state : SessionState
  client_version : Option String
  threads : Nat
  current_job_id : Option String
  current_reserved_value : Option (List Nat)
  connected_at : Nat
  last_activity : Nat
  limits : SessionLimits
deriving Repr, DecidableEq

/-- `Session::new` (the UUID `id` and instant `now` passed explicitly). -/
def Session.new (id : String) (ip : Nat) (now : Nat)
    (messages_per_second : Nat) (submits_per_minute : Nat) : Session :=
  { id := id
    ip := ip
    state := SessionState.Connected
    client_version := none
    threads := 1
    current_job_id := none
    current_reserved_value := none
    connected_at := now
    last_activity := now
    limits := SessionLimits.new messages_per_second submits_per_minute }

/-- The manual `impl Clone for Session`: every field copied except
`limits`, which is rebuilt as `SessionLimits::new(20, 120)`
("Default values for clones"). -/
def Session.clone (s : Session) : Session :=
  { s with limits := SessionLimits.new 20 120 }

/-- `SessionManager` from `session.rs`. -/
structure SessionManager where
  sessions : List (String × Session)
  ip_counts : List (Nat × Nat)
  max_per_ip : Nat
  max_total : Nat
  messages_per_second : Nat
  submits_per_minute : Nat
deriving Repr, DecidableEq

/-- `SessionManager::new`. -/
def SessionManager.new (max_per_ip max_total : Nat)
    (messages_per_second submits_per_minute : Nat) : SessionManager :=
  { sessions := []
    ip_counts := []
    max_per_ip := max_per_ip
    max_total := max_total
    messages_per_second := messages_per_second
    submits_per_minute := submits_per_minute }

/-- `SessionManager::create_session`: global cap checked first; then
`ip_counts.entry(ip).or_insert(0)` and the per-IP cap; on success the
count is incremented, a fresh session built, and its **clone** inserted
into the map while the original is returned. -/
def SessionManager.create_session (m : SessionManager) (ip : Nat)
    (newId : String) (now : Nat) : Option Session × SessionManager :=
  if m.sessions.length ≥ m.max_total then (none, m)
  else
    let cnt := (alistLookup ip m.ip_counts).getD 0
    let m1 := { m with ip_counts := alistInsert ip cnt m.ip_counts }
    if cnt ≥ m.max_per_ip then (none, m1)
    else
      let m2 := { m1 with ip_counts := alistInsert ip (cnt + 1) m1.ip_counts }
      let s := Session.new newId ip now m.messages_per_second m.submits_per_minute
      (some s, { m2 with sessions := alistInsert s.id s.clone m2.sessions })

/-- `SessionManager::remove_session`: remove the entry, then
`entry(ip).or_insert(0)`, `saturating_sub(1)`, and drop the ip entry when
the count reaches zero. -/
def SessionManager.remove_session (m : SessionManager) (id : String) : SessionManager :=
  match alistLookup id m.sessions with
  | none => m
  | some s =>
    let sessions' := alistRemove id m.sessions
    let cnt := (alistLookup s.ip m.ip_counts).getD 0
    let cnt' := cnt - 1
    if cnt' = 0 then
      { m with sessions := sessions', ip_counts := alistRemove s.ip m.ip_counts }
    else
      { m with sessions := sessions', ip_counts := alistInsert s.ip cnt' m.ip_counts }

/-- `SessionManager::cleanup_idle`: snapshot the ids of sessions idle
longer than `max_idle`, then remove them one by one. -/
def SessionManager.cleanup_idle (m : SessionManager) (now max_idle : Nat) : SessionManager :=
  let to_remove := (m.sessions.filter
    (fun p => now - p.2.last_activity > max_idle)).map Prod.fst
  to_remove.foldl (fun acc id => acc.remove_session id) m

/-- Number of live sessions whose `ip` field is the given address. -/
def ipLiveCount (m : SessionManager) (ip : Nat) : Nat :=
  (m.sessions.filter (fun p => p.2.ip = ip)).length

/-- The ip-count coherence invariant: for every address, the stored
count (0 when absent) equals the number of live sessions from it. -/
def ipInv (m : SessionManager) : Prop :=
  ∀ ip, (alistLookup ip m.ip_counts).getD 0 = ipLiveCount m ip

example :
    (((SessionManager.new 2 10 5 7).create_session 3 "a" 0).2.create_session 3 "b" 1).2.sessions.length = 2 := by
  decide
example :
    ((((SessionManager.new 2 10 5 7).create_session 3 "a" 0).2.create_session 3 "b" 1).2.create_session 3 "c" 2).1 = none := by
  decide

/-! ## Hex codec (the `hex` crate as used by `jobs.rs`/`validator.rs`)

Character strings are `List Nat` of code points; bytes are `Nat < 256`. -/

/-- Lower-case hex digit for a nibble: `'0'..'9'` then `'a'..'f'`. -/
def hexDigitChar (n : Nat) : Nat :=
  if n < 10 then 48 + n else 87 + n

/-- `hex::encode`: each byte becomes high nibble then low nibble. -/
def hexEncode (bs : List Nat) : List Nat :=
  bs.foldr (fun b acc => hexDigitChar (b / 16) :: hexDigitChar (b % 16) :: acc) []

/-- Value of one hex character (`0-9`, `a-f`, `A-F`), `none` otherwise. -/
def hexCharVal (c : Nat) : Option Nat :=
  if 48 ≤ c ∧ c ≤ 57 then some (c - 48)
  else if 97 ≤ c ∧ c ≤ 102 then some (c - 87)
  else if 65 ≤ c ∧ c ≤ 70 then some (c - 55)
  else none

/-- `hex::decode`: pairs of hex characters to bytes; fails on odd length
or a non-hex character. -/
def hexDecode : List Nat → Option (List Nat)
  | [] => some []
  | [_] => none
  | c1 :: c2 :: rest =>
    match hexCharVal c1, hexCharVal c2, hexDecode rest with
    | some h, some l, some bs => some ((h * 16 + l) :: bs)
    | _, _, _ => none

example : hexEncode [0, 255, 128] = [48, 48, 102, 102, 56, 48] := by decide
example : hexDecode (hexEncode [0, 255, 128]) = some [0, 255, 128] := by decide

/-! ## Jobs (`src/jobs.rs`) -/

/-- `TemplateState` from `template.rs`; `blocktemplate_blob` and
`blockhashing_blob` are hex character strings. -/
structure TemplateState where
  template_id : Nat
  height : Nat
  prev_hash : String
  blocktemplate_blob : List Nat
  blockhashing_blob : List Nat
  difficulty : Nat
  reserved_offset : Nat
  reserve_size : Nat
  seed_hash : String
  created_at : Nat
deriving Repr, DecidableEq

/-- `Job` from `jobs.rs`; `job_id`, `blob_hex`, `target_hex` are
character strings modelled as code-point lists. -/
structure Job where
  job_id : List Nat
  template_id : Nat
  blob_hex : List Nat
  reserved_offset : Nat
  reserved_value : List Nat
  target_hex : List Nat
  height : Nat
  seed_hash : String
  created_at : Nat
deriving Repr, DecidableEq

/-- The little-endian bytes of a `u64` (`seq.to_le_bytes()`). -/
def leBytes8 (seq : Nat) : List Nat :=
  (List.range 8).map (fun i => seq / 256 ^ i % 256)

/-- `format!("{:016x}", seq)`: sixteen lower-case hex characters, most
significant nibble first. -/
def jobIdChars (seq : Nat) : List Nat :=
  (List.range 16).map (fun i => hexDigitChar (seq / 16 ^ (15 - i) % 16))

/-- The reserved-value derivation in `JobManager::create_job`: a zeroed
buffer of length `reserve_size` overwritten positionally from
`session_id.as_bytes().iter().chain(seq.to_le_bytes()).take(reserve_size)`. -/
def reservedValue (session_id : List Nat) (seq : Nat) (reserve_size : Nat) : List Nat :=
  let src := (session_id ++ leBytes8 seq).take reserve_size
  src ++ List.replicate (reserve_size - src.length) 0

/-- The blob-mutation loop in `create_job`: write each reserved byte at
`offset + i`, skipping positions past the end of the blob
(`List.set` is the identity out of bounds, like the `if` guard). -/
def writeReserved : List Nat → Nat → List Nat → List Nat
  | blob, _, [] => blob
  | blob, offset, b :: bs => writeReserved (blob.set offset b) (offset + 1) bs

/-- `difficulty_to_target` from `jobs.rs`: 32 bytes of `0xff` for
`d ≤ 1`, otherwise the little-endian bytes of `⌊2^256 / d⌋` in a zeroed
32-byte buffer.  (`BigUint::to_bytes_le` of `n < 2^256` followed by the
copy into `[0u8; 32]` makes byte `i` equal `n / 256^i % 256`.) -/
def difficulty_to_target (difficulty : Nat) : List Nat :=
  if difficulty ≤ 1 then List.replicate 32 255
  else (List.range 32).map (fun i => 2 ^ 256 / difficulty / 256 ^ i % 256)

/-- `JobManager` from `jobs.rs`: the job map, the atomic `u64` counter
(modelled as the total number of `create_job` calls so far; the stored
`u64` is its value mod `2^64`), and `stale_grace_ms`. -/
structure JobManager where
  jobs : List (List Nat × Job)
  counter : Nat
  stale_grace_ms : Nat
deriving Repr, DecidableEq

/-- `JobManager::new`. -/
def JobManager.new (stale_grace_ms : Nat) : JobManager :=
  { jobs := [], counter := 0, stale_grace_ms := stale_grace_ms }

/-- The `Job` value built by `JobManager::create_job` for sequence
number `seq` (a `u64`), from the session-id bytes and the instant `now`. -/
def mkJob (template : TemplateState) (session_id : List Nat) (seq : Nat) (now : Nat) : Job :=
  let reserved := reservedValue session_id seq template.reserve_size
  let blob := (hexDecode template.blocktemplate_blob).getD []
  let blob' := writeReserved blob template.reserved_offset reserved
  let target := difficulty_to_target template.difficulty
  { job_id := jobIdChars seq
    template_id := template.template_id
    blob_hex := hexEncode blob'
    reserved_offset := template.reserved_offset
    reserved_value := reserved
    target_hex := hexEncode target
    height := template.height
    seed_hash := template.seed_hash
    created_at := now }

/-- `JobManager::create_job`: fetch-and-increment the counter (wrapping
as a `u64`), build the job, insert it into the map, return it. -/
def JobManager.create_job (m : JobManager) (template : TemplateState)
    (session_id : List Nat) (now : Nat) : Job × JobManager :=
  let seq := m.counter % 2 ^ 64
  let job := mkJob template session_id seq now
  (job, { m with counter := m.counter + 1, jobs := alistInsert job.job_id job m.jobs })

/-- `JobManager::is_stale`: never stale on the current template,
otherwise stale iff the age in milliseconds strictly exceeds
`stale_grace_ms`. -/
def JobManager.is_stale (m : JobManager) (job : Job) (current_template_id : Nat)
    (now : Nat) : Bool :=
  if job.template_id = current_template_id then false
  else decide (now - job.created_at > m.stale_grace_ms)

/-! ## Target comparison (`src/validator.rs`) -/

/-- The scan of `check_meets_target` on most-significant-first byte
lists: the first unequal position decides; all-equal returns `true`. -/
def cmtScan : List Nat → List Nat → Bool
  | h :: hs, t :: ts =>
    if h < t then true
    else if t < h then false
    else cmtScan hs ts
  | _, _ => true

/-- `SubmissionValidator::check_meets_target`: compare bytes from index
31 down to 0, i.e. scan the reversed little-endian arrays. -/
def check_meets_target (hash target : List Nat) : Bool :=
  cmtScan hash.reverse target.reverse

/-- Numeric value of a little-endian byte string. -/
def leVal : List Nat → Nat
  | [] => 0
  | b :: bs => b + 256 * leVal bs

example : check_meets_target (0 :: List.replicate 31 0) (1 :: List.replicate 31 0) = true := by decide
example : check_meets_target (List.replicate 32 255) (1 :: List.replicate 31 0) = false := by decide
example : leVal [1, 2] = 513 := by decide

/-! ## Staleness (claim C9) -/

/-- C9: `JobManager::is_stale` returns `false` whenever the job's
template id equals the current one, regardless of age; otherwise it
returns `true` exactly when the job's age in milliseconds strictly
exceeds `stale_grace_ms`. -/
theorem is_stale_spec (m : JobManager) (job : Job) (cur now : Nat) :
    (job.template_id = cur → m.is_stale job cur now = false) ∧
    (job.template_id ≠ cur →
      (m.is_stale job cur now = true ↔ now - job.created_at > m.stale_grace_ms)) := by
  constructor
  · intro h
    simp [JobManager.is_stale, h]
  · intro h
    simp [JobManager.is_stale, h]

/-- Witness for C9 at a concrete job (`template_id = 7`,
`created_at = 0`, grace 100 ms, now 500 ms). -/
theorem is_stale_spec_witness :
    (JobManager.new 100).is_stale ⟨[], 7, [], 0, [], [], 0, "", 0⟩ 7 500 = false ∧
    ((JobManager.new 100).is_stale ⟨[], 7, [], 0, [], [], 0, "", 0⟩ 8 500 = true ↔
      500 - 0 > 100) := by
  constructor
  · exact (is_stale_spec (JobManager.new 100) ⟨[], 7, [], 0, [], [], 0, "", 0⟩ 7 500).1 rfl
  · have h := (is_stale_spec (JobManager.new 100) ⟨[], 7, [], 0, [], [], 0, "", 0⟩ 8 500).2
      (by decide)
    exact h

/-! ## Target boundary (claim C7) -/

/-- C7: `difficulty_to_target` yields 32 bytes of `0xff` for every
difficulty `≤ 1`, and for difficulty 2 yields the little-endian bytes of
`2^255`: byte 31 is `0x80`, every other byte `0`. -/
theorem difficulty_to_target_boundary :
    (∀ d, d ≤ 1 → difficulty_to_target d = List.replicate 32 255) ∧
    (difficulty_to_target 2).get? 31 = some 128 ∧
    (∀ i, i < 31 → (difficulty_to_target 2).get? i = some 0) := by
  refine ⟨?_, by decide, by decide⟩
  intro d hd
  simp [difficulty_to_target, hd]

/-- Witness for C7 at difficulties 0 and 1. -/
theorem difficulty_to_target_boundary_witness :
    difficulty_to_target 0 = List.replicate 32 255 ∧
    difficulty_to_target 1 = List.replicate 32 255 := by
  exact ⟨difficulty_to_target_boundary.1 0 (by decide),
    difficulty_to_target_boundary.1 1 (by decide)⟩

/-! ## Registry session limits (claim C1) -/

/-- C1 (failing input): with configured limits `messages_per_second = 5`
and `submits_per_minute = 10`, the session returned to the caller
carries limiters built from the configuration, but the record stored in
the registry — the one `check_message_limit`/`check_submit_limit`
consult — is the `Clone`, whose limiters are the hard-coded
`SessionLimits::new(20, 120)`, not the configured pair. -/
theorem create_session_clone_limits :
    (((SessionManager.new 10 10 5 10).create_session 3 "sid" 0).1.map Session.limits
      = some (SessionLimits.new 5 10)) ∧
    ((alistLookup "sid" ((SessionManager.new 10 10 5 10).create_session 3 "sid" 0).2.sessions).map
      Session.limits = some (SessionLimits.new 20 120)) ∧
    SessionLimits.new 20 120 ≠ SessionLimits.new 5 10 := by
  refine ⟨rfl, rfl, by decide⟩

/-! ## Reserved-value uniqueness (claim C2) -/

/-- C2 (failing input): with the typical `reserve_size = 8` and a
36-character session id, the reserved value is the first 8 bytes of the
session id for *every* sequence number — two jobs for the same session
with different `seq` get identical `reserved_value` (while their
`job_id`s do differ). -/
theorem reserved_value_ignores_seq :
    (mkJob ⟨1, 0, "", [], [], 1, 0, 8, "", 0⟩ (List.replicate 36 97) 0 0).reserved_value
      = List.replicate 8 97 ∧
    (mkJob ⟨1, 0, "", [], [], 1, 0, 8, "", 0⟩ (List.replicate 36 97) 1 0).reserved_value
      = List.replicate 8 97 ∧
    (mkJob ⟨1, 0, "", [], [], 1, 0, 8, "", 0⟩ (List.replicate 36 97) 0 0).job_id
      ≠ (mkJob ⟨1, 0, "", [], [], 1, 0, 8, "", 0⟩ (List.replicate 36 97) 1 0).job_id := by
  refine ⟨by decide, by decide, by decide⟩

/-! ## Target comparison (claim C3) -/

/-- C3 (counterexample): on byte-for-byte equal hash and target,
`check_meets_target` returns `true`, although the little-endian value of
the hash is not strictly below that of the target. -/
theorem check_meets_target_equal_admits :
    check_meets_target (List.replicate 32 0) (List.replicate 32 0) = true ∧
    ¬ leVal (List.replicate 32 0) < leVal (List.replicate 32 0) := by
  refine ⟨by decide, by decide⟩

/-- Numeric value of a most-significant-first byte string. -/
def beVal : List Nat → Nat
  | [] => 0
  | b :: bs => b * 256 ^ bs.length + beVal bs

theorem beVal_lt_of_bytes {l : List Nat} (hb : ∀ b ∈ l, b < 256) :
    beVal l < 256 ^ l.length := by
  induction l with
  | nil => simp [beVal]
  | cons b bs ih =>
    have hb0 : b < 256 := hb b (List.mem_cons_self b bs)
    have hbs : beVal bs < 256 ^ bs.length := ih (fun x hx => hb x (List.mem_cons_of_mem b hx))
    have h1 : (b + 1) * 256 ^ bs.length ≤ 256 * 256 ^ bs.length :=
      Nat.mul_le_mul_right _ hb0
    have h2 : (b + 1) * 256 ^ bs.length = b * 256 ^ bs.length + 256 ^ bs.length := by ring
    simp only [beVal, List.length_cons, pow_succ]
    have h3 : 256 ^ bs.length * 256 = 256 * 256 ^ bs.length := by ring
    omega

theorem beVal_append_singleton (xs : List Nat) (x : Nat) :
    beVal (xs ++ [x]) = 256 * beVal xs + x := by
  induction xs with
  | nil => simp [beVal]
  | cons y ys ih =>
    show y * 256 ^ (ys ++ [x]).length + beVal (ys ++ [x]) =
      256 * (y * 256 ^ ys.length + beVal ys) + x
    rw [ih]
    simp only [List.length_append, List.length_cons, List.length_nil]
    ring

theorem beVal_reverse (l : List Nat) : beVal l.reverse = leVal l := by
  induction l with
  | nil => simp [beVal, leVal]
  | cons x xs ih =>
    simp only [List.reverse_cons, beVal_append_singleton, ih, leVal]
    ring

theorem cmtScan_iff (hs ts : List Nat) (hlen : hs.length = ts.length)
    (hb : ∀ b ∈ hs, b < 256) (tb : ∀ b ∈ ts, b < 256) :
    (cmtScan hs ts = true ↔ beVal hs ≤ beVal ts) := by
  induction hs generalizing ts with
  | nil =>
    cases ts with
    | nil => simp [cmtScan]
    | cons t ts' => simp at hlen
  | cons h hs' ih =>
    cases ts with
    | nil => simp at hlen
    | cons t ts' =>
      have hlen' : hs'.length = ts'.length := by simpa using hlen
      have hb0 : h < 256 := hb h (List.mem_cons_self h hs')
      have tb0 : t < 256 := tb t (List.mem_cons_self t ts')
      have hb' : ∀ b ∈ hs', b < 256 := fun x hx => hb x (List.mem_cons_of_mem h hx)
      have tb' : ∀ b ∈ ts', b < 256 := fun x hx => tb x (List.mem_cons_of_mem t hx)
      have hbnd : beVal hs' < 256 ^ hs'.length := beVal_lt_of_bytes hb'
      have tbnd : beVal ts' < 256 ^ ts'.length := beVal_lt_of_bytes tb'
      simp only [cmtScan, beVal, hlen']
      by_cases h1 : h < t
      · simp only [if_pos h1, true_iff]
        have e1 : (h + 1) * 256 ^ ts'.length ≤ t * 256 ^ ts'.length :=
          Nat.mul_le_mul_right _ h1
        have e2 : (h + 1) * 256 ^ ts'.length = h * 256 ^ ts'.length + 256 ^ ts'.length := by
          ring
        rw [hlen'] at hbnd
        omega
      · by_cases h2 : t < h
        · simp only [if_neg h1, if_pos h2]
          have e1 : (t + 1) * 256 ^ ts'.length ≤ h * 256 ^ ts'.length :=
            Nat.mul_le_mul_right _ h2
          have e2 : (t + 1) * 256 ^ ts'.length = t * 256 ^ ts'.length + 256 ^ ts'.length := by
            ring
          rw [hlen'] at hbnd
          constructor
          · intro hf; exact absurd hf (by simp)
          · intro hle; omega
        · have heq : h = t := by omega
          subst heq
          simp only [if_neg h1, if_neg h2]
          rw [ih ts' hlen' hb' tb']
          omega

/-- C3 (amended): for 32-byte hash and target, `check_meets_target`
returns `true` iff the little-endian value of the hash is less than *or
equal to* that of the target — equality admits. -/
theorem check_meets_target_iff_le (h t : List Nat) (hl : h.length = 32)
    (tl : t.length = 32) (hb : ∀ b ∈ h, b < 256) (tb : ∀ b ∈ t, b < 256) :
    (check_meets_target h t = true ↔ leVal h ≤ leVal t) := by
  unfold check_meets_target
  rw [cmtScan_iff h.reverse t.reverse (by simp [hl, tl])
    (by simpa using hb) (by simpa using tb)]
  rw [beVal_reverse, beVal_reverse]

/-- Witness for C3 (amended) at concrete 32-byte arrays. -/
theorem check_meets_target_iff_le_witness :
    (check_meets_target (List.replicate 32 0) (1 :: List.replicate 31 0) = true ↔
      leVal (List.replicate 32 0) ≤ leVal (1 :: List.replicate 31 0)) := by
  exact check_meets_target_iff_le (List.replicate 32 0) (1 :: List.replicate 31 0)
    (by decide) (by decide) (by decide) (by decide)

/-! ## Target monotonicity (claim C8) -/

theorem leVal_range_digits (k n : Nat) :
    leVal ((List.range k).map (fun i => n / 256 ^ i % 256)) = n % 256 ^ k := by
  induction k generalizing n with
  | zero => simp [leVal, Nat.mod_one]
  | succ k ih =>
    rw [List.range_succ_eq_map, List.map_cons, List.map_map]
    have hmap : (List.range k).map ((fun i => n / 256 ^ i % 256) ∘ Nat.succ) =
        (List.range k).map (fun i => (n / 256) / 256 ^ i % 256) := by
      apply List.map_congr_left
      intro i _
      simp only [Function.comp_apply]
      rw [pow_succ', ← Nat.div_div_eq_div_mul]
    rw [hmap]
    show n / 256 ^ 0 % 256 + 256 * leVal ((List.range k).map
      (fun i => (n / 256) / 256 ^ i % 256)) = n % 256 ^ (k + 1)
    rw [ih, pow_zero, Nat.div_one, pow_succ' 256 k, Nat.mod_mul]

theorem leVal_target_of_ge_two {d : Nat} (hd : 2 ≤ d) :
    leVal (difficulty_to_target d) = 2 ^ 256 / d := by
  have h1 : ¬ d ≤ 1 := by omega
  rw [difficulty_to_target, if_neg h1, leVal_range_digits]
  apply Nat.mod_eq_of_lt
  have hle : 2 ^ 256 / d ≤ 2 ^ 256 / 2 := Nat.div_le_div_left hd (by norm_num)
  have h2 : (256 : Nat) ^ 32 = 2 ^ 256 := by norm_num
  have h3 : (2 : Nat) ^ 256 / 2 < 2 ^ 256 := by
    have hh : (2 : Nat) ^ 256 / 2 = 2 ^ 255 := by
      rw [pow_succ 2 255, Nat.mul_div_cancel _ (by norm_num)]
    rw [hh]
    exact Nat.pow_lt_pow_right (by norm_num) (by norm_num)
  omega

theorem pow256_div_strict_anti {d1 d2 : Nat} (h1 : 2 ≤ d1) (h12 : d1 < d2)
    (h2 : d2 < 2 ^ 64) :
    2 ^ 256 / d2 < 2 ^ 256 / d1 := by
  have hd1pos : 0 < d1 := by omega
  obtain ⟨e, rfl⟩ : ∃ e, d2 = e + 1 := ⟨d2 - 1, by omega⟩
  have hxd2 : 2 ^ 256 / (e + 1) * (e + 1) ≤ 2 ^ 256 := Nat.div_mul_le_self _ _
  have h192 : 2 ^ 192 ≤ 2 ^ 256 / (e + 1) := by
    have hdle : e + 1 ≤ 2 ^ 64 := by omega
    have hmono := Nat.div_le_div_left (a := 2 ^ 256) hdle (by omega)
    have hpd : (2 : ℕ) ^ 256 / 2 ^ 64 = 2 ^ 192 := by
      rw [Nat.pow_div (by omega) (by omega)]
    omega
  have hd1x : d1 ≤ 2 ^ 256 / (e + 1) := by
    have hp : (2 : ℕ) ^ 64 ≤ 2 ^ 192 := Nat.pow_le_pow_right (by omega) (by omega)
    omega
  have hm : 2 ^ 256 / (e + 1) * d1 ≤ 2 ^ 256 / (e + 1) * e :=
    Nat.mul_le_mul_left _ (by omega)
  have hexp : 2 ^ 256 / (e + 1) * (e + 1) = 2 ^ 256 / (e + 1) * e + 2 ^ 256 / (e + 1) := by
    ring
  have hkey : (2 ^ 256 / (e + 1) + 1) * d1 ≤ 2 ^ 256 := by
    have hdist : (2 ^ 256 / (e + 1) + 1) * d1 = 2 ^ 256 / (e + 1) * d1 + d1 := by ring
    omega
  have hfin := (Nat.le_div_iff_mul_le hd1pos).mpr hkey
  omega

/-- C8: for 64-bit difficulties `2 ≤ d₁ < d₂`, the target of `d₁` is
numerically strictly greater than the target of `d₂` (little-endian
values of the 32-byte arrays). -/
theorem difficulty_to_target_strict_anti (d1 d2 : Nat) (h1 : 2 ≤ d1) (h12 : d1 < d2)
    (h2 : d2 < 2 ^ 64) :
    leVal (difficulty_to_target d2) < leVal (difficulty_to_target d1) := by
  rw [leVal_target_of_ge_two h1, leVal_target_of_ge_two (by omega)]
  exact pow256_div_strict_anti h1 h12 h2

/-- Witness for C8 at difficulties 2 and 3. -/
theorem difficulty_to_target_strict_anti_witness :
    leVal (difficulty_to_target 3) < leVal (difficulty_to_target 2) :=
  difficulty_to_target_strict_anti 2 3 (by decide) (by decide) (by decide)

/-! ## Hex round-trip and the blob-reserved invariant (claim C6) -/

theorem hexCharVal_hexDigitChar {n : Nat} (h : n < 16) :
    hexCharVal (hexDigitChar n) = some n := by
  unfold hexDigitChar hexCharVal
  split_ifs <;> first
    | (exact congrArg some (by omega))
    | omega

theorem hexCharVal_lt {c v : Nat} (h : hexCharVal c = some v) : v < 16 := by
  unfold hexCharVal at h
  split_ifs at h <;> injection h with h <;> omega

theorem hexEncode_cons (b : Nat) (bs : List Nat) :
    hexEncode (b :: bs) = hexDigitChar (b / 16) :: hexDigitChar (b % 16) :: hexEncode bs :=
  rfl

theorem hexDecode_hexEncode {bs : List Nat} (h : ∀ b ∈ bs, b < 256) :
    hexDecode (hexEncode bs) = some bs := by
  induction bs with
  | nil => rfl
  | cons b bs ih =>
    have hb : b < 256 := h b (List.mem_cons_self b bs)
    have hbs := ih (fun x hx => h x (List.mem_cons_of_mem b hx))
    rw [hexEncode_cons]
    show hexDecode (hexDigitChar (b / 16) :: hexDigitChar (b % 16) :: hexEncode bs) = _
    unfold hexDecode
    rw [hexCharVal_hexDigitChar (by omega), hexCharVal_hexDigitChar (by omega), hbs]
    show some ((b / 16 * 16 + b % 16) :: bs) = some (b :: bs)
    have hbmod : b / 16 * 16 + b % 16 = b := by omega
    rw [hbmod]

theorem hexDecode_bytes_lt : ∀ (cs : List Nat) {bs : List Nat}, hexDecode cs = some bs →
    ∀ b ∈ bs, b < 256
  | [], bs, h => by
    injection h with h
    subst h
    intro b hb
    exact absurd hb (List.not_mem_nil b)
  | [_], _, h => Option.noConfusion h
  | c1 :: c2 :: rest, bs, h => by
    unfold hexDecode at h
    split at h
    · rename_i v1 v2 bs0 e1 e2 e3
      injection h with h
      subst h
      intro b hb
      rcases List.mem_cons.mp hb with hb | hb
      · have hv1 := hexCharVal_lt e1
        have hv2 := hexCharVal_lt e2
        omega
      · exact hexDecode_bytes_lt rest e3 b hb
    · exact Option.noConfusion h

theorem writeReserved_length : ∀ (bs blob : List Nat) (off : Nat),
    (writeReserved blob off bs).length = blob.length
  | [], _, _ => rfl
  | b :: bs, blob, off => by
    show (writeReserved (blob.set off b) (off + 1) bs).length = blob.length
    rw [writeReserved_length bs (blob.set off b) (off + 1), List.length_set]

theorem writeReserved_getElem? : ∀ (bs blob : List Nat) (off i : Nat),
    (writeReserved blob off bs)[i]? =
      if off ≤ i ∧ i < off + bs.length ∧ i < blob.length then bs[i - off]? else blob[i]?
  | [], blob, off, i => by
    show blob[i]? = if off ≤ i ∧ i < off + ([] : List Nat).length ∧ i < blob.length
      then ([] : List Nat)[i - off]? else blob[i]?
    rw [if_neg (by simp only [List.length_nil]; omega)]
  | b :: bs, blob, off, i => by
    show (writeReserved (blob.set off b) (off + 1) bs)[i]? = _
    rw [writeReserved_getElem? bs (blob.set off b) (off + 1) i, List.length_set]
    by_cases h1 : off + 1 ≤ i ∧ i < off + 1 + bs.length ∧ i < blob.length
    · rw [if_pos h1, if_pos (by simp only [List.length_cons]; omega)]
      have hsub : i - off = (i - (off + 1)) + 1 := by omega
      rw [hsub]
      exact (List.getElem?_cons_succ ..).symm
    · rw [if_neg h1, List.getElem?_set]
      by_cases h2 : off = i
      · subst h2
        by_cases h3 : off < blob.length
        · rw [if_pos rfl, if_pos h3, if_pos (by simp only [List.length_cons]; omega)]
          have hsub : off - off = 0 := by omega
          rw [hsub]
          exact (List.getElem?_cons_zero ..).symm
        · rw [if_pos rfl, if_neg h3,
            if_neg (by simp only [List.length_cons]; omega)]
          exact (List.getElem?_eq_none (by omega)).symm
      · rw [if_neg h2, if_neg (by simp only [List.length_cons]; omega)]

theorem writeReserved_bytes_lt {blob bs : List Nat} (hblob : ∀ b ∈ blob, b < 256)
    (hbs : ∀ b ∈ bs, b < 256) (off : Nat) :
    ∀ b ∈ writeReserved blob off bs, b < 256 := by
  induction bs generalizing blob off with
  | nil => exact hblob
  | cons b0 bs ih =>
    intro b hb
    refine ih ?_
      (fun x hx => hbs x (List.mem_cons_of_mem b0 hx)) (off + 1) b hb
    intro x hx
    rcases List.mem_or_eq_of_mem_set hx with hx | hx
    · exact hblob x hx
    · rw [hx]
      exact hbs b0 (List.mem_cons_self b0 bs)

theorem reservedValue_length (sid : List Nat) (seq rs : Nat) :
    (reservedValue sid seq rs).length = rs := by
  unfold reservedValue
  simp only [List.length_append, List.length_replicate, List.length_take]
  omega

theorem reservedValue_bytes_lt {sid : List Nat} (hs : ∀ b ∈ sid, b < 256) (seq rs : Nat) :
    ∀ b ∈ reservedValue sid seq rs, b < 256 := by
  intro b hb
  unfold reservedValue at hb
  rcases List.mem_append.mp hb with hb | hb
  · have hb' := List.mem_of_mem_take hb
    rcases List.mem_append.mp hb' with hb' | hb'
    · exact hs b hb'
    · unfold leBytes8 at hb'
      rcases List.mem_map.mp hb' with ⟨i, _, rfl⟩
      exact Nat.mod_lt _ (by norm_num)
  · have := List.eq_of_mem_replicate hb
    omega

/-- C6: for every job minted from a template whose blob is valid hex and
satisfies `reserved_offset + reserve_size ≤ decoded length`, decoding
the job's `blob_hex` and slicing
`[reserved_offset .. reserved_offset + reserve_size)` yields exactly the
job's `reserved_value`, and every byte outside that slice equals the
corresponding byte of the decoded template blob. -/
theorem create_job_blob_reserved (t : TemplateState) (sid : List Nat) (seq now : Nat)
    (B : List Nat) (hdec : hexDecode t.blocktemplate_blob = some B)
    (hlen : t.reserved_offset + t.reserve_size ≤ B.length)
    (hsid : ∀ b ∈ sid, b < 256) :
    ∃ blob', hexDecode (mkJob t sid seq now).blob_hex = some blob' ∧
      (blob'.drop t.reserved_offset).take t.reserve_size
        = (mkJob t sid seq now).reserved_value ∧
      ∀ i, i < t.reserved_offset ∨ t.reserved_offset + t.reserve_size ≤ i →
        blob'[i]? = B[i]? := by
  have hreslen : (reservedValue sid seq t.reserve_size).length = t.reserve_size :=
    reservedValue_length sid seq _
  have hresb : ∀ b ∈ reservedValue sid seq t.reserve_size, b < 256 :=
    reservedValue_bytes_lt hsid seq _
  have hBb : ∀ b ∈ B, b < 256 := hexDecode_bytes_lt _ hdec
  have hwlen : (writeReserved B t.reserved_offset (reservedValue sid seq t.reserve_size)).length
      = B.length := writeReserved_length _ B _
  have hwb : ∀ b ∈ writeReserved B t.reserved_offset (reservedValue sid seq t.reserve_size),
      b < 256 := writeReserved_bytes_lt hBb hresb _
  have hbhex : (mkJob t sid seq now).blob_hex =
      hexEncode (writeReserved B t.reserved_offset (reservedValue sid seq t.reserve_size)) := by
    show hexEncode (writeReserved ((hexDecode t.blocktemplate_blob).getD [])
      t.reserved_offset (reservedValue sid seq t.reserve_size)) = _
    rw [hdec]
    rfl
  refine ⟨writeReserved B t.reserved_offset (reservedValue sid seq t.reserve_size),
    ?_, ?_, ?_⟩
  · rw [hbhex]
    exact hexDecode_hexEncode hwb
  · have hrv : (mkJob t sid seq now).reserved_value = reservedValue sid seq t.reserve_size :=
      rfl
    rw [hrv]
    apply List.ext_getElem?
    intro n
    by_cases hn : n < t.reserve_size
    · rw [List.getElem?_take_of_lt hn, List.getElem?_drop, writeReserved_getElem?,
        if_pos (by omega)]
      have hsub : t.reserved_offset + n - t.reserved_offset = n := by omega
      rw [hsub]
    · rw [List.getElem?_eq_none, List.getElem?_eq_none]
      · omega
      · simp only [List.length_take, List.length_drop]
        omega
  · intro i hi
    rw [writeReserved_getElem?, if_neg (by omega)]

/-- Witness for C6: template blob `"00000000"` (four zero bytes),
reserved region `[1, 3)`, session id byte `97`, sequence 5. -/
theorem create_job_blob_reserved_witness :
    ∃ blob',
      hexDecode (mkJob ⟨1, 10, "", [48, 48, 48, 48, 48, 48, 48, 48], [], 3, 1, 2, "", 0⟩
        [97] 5 0).blob_hex = some blob' ∧
      (blob'.drop 1).take 2
        = (mkJob ⟨1, 10, "", [48, 48, 48, 48, 48, 48, 48, 48], [], 3, 1, 2, "", 0⟩
            [97] 5 0).reserved_value ∧
      ∀ i, i < 1 ∨ 1 + 2 ≤ i → blob'[i]? = [0, 0, 0, 0][i]? :=
  create_job_blob_reserved ⟨1, 10, "", [48, 48, 48, 48, 48, 48, 48, 48], [], 3, 1, 2, "", 0⟩
    [97] 5 0 [0, 0, 0, 0] (by decide) (by decide) (by decide)

/-! ## Rate-limiter contract (claim C4) -/

/-- One `check` call, described pointwise: the decision is exactly
"post-eviction count below capacity", and the timestamp store gains the
current instant exactly on admit. -/
theorem check_spec (r : RateLimiter) (now : Nat) :
    (r.check now).1 = decide ((r.evict now).timestamps.length < r.max_count) ∧
    (r.check now).2.timestamps = (r.evict now).timestamps ++
      (if (r.evict now).timestamps.length < r.max_count then [now] else []) ∧
    (r.check now).2.window = r.window ∧
    (r.check now).2.max_count = r.max_count := by
  unfold RateLimiter.check
  dsimp only
  have hmc : (r.evict now).max_count = r.max_count := rfl
  rw [hmc]
  by_cases hcond : r.max_count ≤ (r.evict now).timestamps.length
  · rw [if_pos hcond]
    exact ⟨(decide_eq_false (by omega)).symm,
      by rw [if_neg (by omega), List.append_nil], rfl, rfl⟩
  · rw [if_neg hcond]
    exact ⟨(decide_eq_true (by omega)).symm,
      by rw [if_pos (by omega)], rfl, rfl⟩

theorem runChecks_window : ∀ (ts : List Nat) (r : RateLimiter),
    (runChecks r ts).2.window = r.window ∧ (runChecks r ts).2.max_count = r.max_count
  | [], r => ⟨rfl, rfl⟩
  | t :: ts, r => by
    show (runChecks (r.check t).2 ts).2.window = r.window ∧
      (runChecks (r.check t).2 ts).2.max_count = r.max_count
    have h1 := runChecks_window ts (r.check t).2
    have h2 := check_spec r t
    exact ⟨h1.1.trans h2.2.2.1, h1.2.trans h2.2.2.2⟩

theorem runChecks_results_length : ∀ (ts : List Nat) (r : RateLimiter),
    (runChecks r ts).1.length = ts.length
  | [], _ => rfl
  | t :: ts, r => by
    show ((r.check t).1 :: (runChecks (r.check t).2 ts).1).length = (t :: ts).length
    simp [runChecks_results_length ts (r.check t).2]

/-- On a sorted store, the front-eviction loop removes exactly the
timestamps below the cutoff. -/
theorem dropWhile_lt_eq_filter_of_sorted : ∀ (l : List Nat) (x : Nat),
    List.Sorted (· ≤ ·) l →
    l.dropWhile (fun t => t < x) = l.filter (fun t => x ≤ t)
  | [], _, _ => rfl
  | a :: l, x, h => by
    rcases List.sorted_cons.mp h with ⟨ha, hl⟩
    by_cases hax : a < x
    · rw [List.dropWhile_cons_of_pos (by simpa using hax),
        List.filter_cons_of_neg (by simpa using hax)]
      exact dropWhile_lt_eq_filter_of_sorted l x hl
    · rw [List.dropWhile_cons_of_neg (by simpa using hax),
        List.filter_cons_of_pos (by simpa using hax)]
      have : l.filter (fun t => x ≤ t) = l := by
        apply List.filter_eq_self.mpr
        intro b hb
        have hab := ha b hb
        simp only [decide_eq_true_eq]
        omega
      rw [this]

theorem filter_le_absorb (l : List Nat) {a b : Nat} (hab : a ≤ b) :
    (l.filter (fun t => a ≤ t)).filter (fun t => b ≤ t) = l.filter (fun t => b ≤ t) := by
  rw [List.filter_filter]
  apply List.filter_congr
  intro x _
  by_cases h2 : b ≤ x
  · have h1 : a ≤ x := le_trans hab h2
    simp [h1, h2]
  · simp [h2]

/-- The instants admitted by a run: those whose decision was `true`. -/
def admittedTimes (ts : List Nat) (bs : List Bool) : List Nat :=
  ((ts.zip bs).filter (fun p => p.2)).map Prod.fst

theorem admittedTimes_cons (t : Nat) (ts : List Nat) (b : Bool) (bs : List Bool) :
    admittedTimes (t :: ts) (b :: bs) =
      (if b then [t] else []) ++ admittedTimes ts bs := by
  cases b <;> simp [admittedTimes]

theorem dropWhile_eq_self_of_head {p : Nat → Bool} : ∀ {l : List Nat},
    (∀ u ∈ l, ¬ p u = true) → l.dropWhile p = l
  | [], _ => rfl
  | a :: l, h => by
    rw [List.dropWhile_cons_of_neg]
    exact fun hc => h a (List.mem_cons_self a l) hc

theorem dropWhile_eq_nil_of_all {p : Nat → Bool} : ∀ {l : List Nat},
    (∀ u ∈ l, p u = true) → l.dropWhile p = []
  | [], _ => rfl
  | a :: l, h => by
    rw [List.dropWhile_cons_of_pos (h a (List.mem_cons_self a l))]
    exact dropWhile_eq_nil_of_all (fun u hu => h u (List.mem_cons_of_mem a hu))

/-- Counting, no eviction: when every event lies within the window of
every stored timestamp and of every other event, and capacity is not
exceeded, every event is admitted and the store just accumulates. -/
theorem runChecks_all_admitted : ∀ (ts : List Nat) (r : RateLimiter),
    (∀ t ∈ ts, ∀ u ∈ r.timestamps, t ≤ u + r.window) →
    (∀ t ∈ ts, ∀ u ∈ ts, t ≤ u + r.window) →
    r.timestamps.length + ts.length ≤ r.max_count →
    (runChecks r ts).1 = List.replicate ts.length true ∧
    (runChecks r ts).2.timestamps = r.timestamps ++ ts
  | [], r, _, _, _ => ⟨rfl, by simp [runChecks]⟩
  | t :: ts, r, hst, hts, hlen => by
    obtain ⟨hb, hts2, hw, hN⟩ := check_spec r t
    have hnoev : (r.evict t).timestamps = r.timestamps := by
      show r.timestamps.dropWhile (fun u => u < t - r.window) = r.timestamps
      apply dropWhile_eq_self_of_head
      intro u hu
      have h1 := hst t (List.mem_cons_self t ts) u hu
      simp only [decide_eq_true_eq]
      omega
    have hadmit : (r.evict t).timestamps.length < r.max_count := by
      rw [hnoev]
      simp only [List.length_cons] at hlen
      omega
    have hb' : (r.check t).1 = true := by
      rw [hb]
      exact decide_eq_true hadmit
    rw [if_pos hadmit, hnoev] at hts2
    have h1' : ∀ x ∈ ts, ∀ u ∈ (r.check t).2.timestamps, x ≤ u + (r.check t).2.window := by
      rw [hts2, hw]
      intro x hx u hu
      rcases List.mem_append.mp hu with hu | hu
      · exact hst x (List.mem_cons_of_mem t hx) u hu
      · rw [List.mem_singleton] at hu
        subst hu
        exact hts x (List.mem_cons_of_mem u hx) u (List.mem_cons_self u ts)
    have h2' : ∀ x ∈ ts, ∀ u ∈ ts, x ≤ u + (r.check t).2.window := by
      rw [hw]
      intro x hx u hu
      exact hts x (List.mem_cons_of_mem t hx) u (List.mem_cons_of_mem t hu)
    have hlen' : (r.check t).2.timestamps.length + ts.length ≤ (r.check t).2.max_count := by
      rw [hts2, hN]
      simp only [List.length_append, List.length_cons, List.length_nil] at hlen ⊢
      omega
    obtain ⟨ih1, ih2⟩ := runChecks_all_admitted ts (r.check t).2 h1' h2' hlen'
    constructor
    · show (r.check t).1 :: (runChecks (r.check t).2 ts).1 = _
      rw [hb', ih1]
      simp [List.replicate_succ]
    · show (runChecks (r.check t).2 ts).2.timestamps = _
      rw [ih2, hts2]
      simp [List.append_assoc]

/-- A single check at capacity, with nothing evictable, is denied and
leaves the store unchanged. -/
theorem check_denied_at_capacity {r : RateLimiter} {now : Nat}
    (hno : ∀ u ∈ r.timestamps, ¬ u < now - r.window)
    (hfull : r.max_count ≤ r.timestamps.length) :
    (r.check now).1 = false ∧ (r.check now).2.timestamps = r.timestamps := by
  obtain ⟨hb, hts, _, _⟩ := check_spec r now
  have hnoev : (r.evict now).timestamps = r.timestamps := by
    show r.timestamps.dropWhile (fun u => u < now - r.window) = r.timestamps
    apply dropWhile_eq_self_of_head
    intro u hu
    simp only [decide_eq_true_eq]
    exact hno u hu
  constructor
  · rw [hb, hnoev]
    exact decide_eq_false (by omega)
  · rw [hts, hnoev, if_neg (by omega), List.append_nil]

theorem check_timestamps (r : RateLimiter) (now : Nat) :
    (r.check now).2.timestamps = (r.evict now).timestamps ++
      (if (r.check now).1 then [now] else []) := by
  obtain ⟨hb, hts, _, _⟩ := check_spec r now
  rw [hts, hb]
  by_cases hc : (r.evict now).timestamps.length < r.max_count
  · rw [if_pos hc, if_pos (decide_eq_true hc)]
  · rw [if_neg hc, if_neg (by simp [hc])]

theorem runChecks_append : ∀ (xs ys : List Nat) (r : RateLimiter),
    (runChecks r (xs ++ ys)).1 =
      (runChecks r xs).1 ++ (runChecks (runChecks r xs).2 ys).1 ∧
    (runChecks r (xs ++ ys)).2 = (runChecks (runChecks r xs).2 ys).2
  | [], _, _ => ⟨rfl, rfl⟩
  | x :: xs, ys, r => by
    obtain ⟨ih1, ih2⟩ := runChecks_append xs ys (r.check x).2
    constructor
    · show (r.check x).1 :: (runChecks (r.check x).2 (xs ++ ys)).1 =
        ((r.check x).1 :: (runChecks (r.check x).2 xs).1) ++
          (runChecks (runChecks (r.check x).2 xs).2 ys).1
    
      rw [List.cons_append, ih1]
    · show (runChecks (r.check x).2 (xs ++ ys)).2 =
        (runChecks (runChecks (r.check x).2 xs).2 ys).2
      rw [ih2]

/-- Over-capacity denial: from a fresh limiter, the first `N` events of
a window-confined sequence of `N + 1` events are admitted and the last
is denied. -/
theorem over_capacity_denied (N W : Nat) (ts : List Nat) (tl : Nat)
    (hlen : ts.length = N)
    (hwin : ∀ t ∈ ts ++ [tl], ∀ u ∈ ts ++ [tl], t ≤ u + W) :
    (runChecks (RateLimiter.new N W) (ts ++ [tl])).1
      = List.replicate N true ++ [false] := by
  obtain ⟨h1, h2⟩ := runChecks_all_admitted ts (RateLimiter.new N W)
    (by intro t ht u hu; exact absurd hu (List.not_mem_nil u))
    (by
      intro t ht u hu
      exact hwin t (List.mem_append_left _ ht) u (List.mem_append_left _ hu))
    (by simp [RateLimiter.new, hlen])
  obtain ⟨hw, hN⟩ := runChecks_window ts (RateLimiter.new N W)
  obtain ⟨ha1, _⟩ := runChecks_append ts [tl] (RateLimiter.new N W)
  rw [ha1, h1, hlen]
  have hdeny := @check_denied_at_capacity
    (runChecks (RateLimiter.new N W) ts).2 tl
    (by
      intro u hu
      rw [h2] at hu
      simp only [RateLimiter.new, List.nil_append] at hu
      have hball := hwin tl (List.mem_append_right _ (List.mem_cons_self tl []))
        u (List.mem_append_left _ hu)
      rw [hw]
      show ¬ u < tl - W
      omega)
    (by
      rw [hN, h2]
      simp [RateLimiter.new, hlen])
  show List.replicate N true ++
    [((runChecks (RateLimiter.new N W) ts).2.check tl).1] = _
  rw [hdeny.1]

/-- Fresh capacity after the window: once every stored timestamp is more
than a window older than every new event, a full batch of
`max_count` window-confined events is admitted. -/
theorem fresh_after_window (r : RateLimiter) (us : List Nat)
    (hlen : us.length = r.max_count)
    (hwin : ∀ t ∈ us, ∀ u ∈ us, t ≤ u + r.window)
    (hadv : ∀ u ∈ r.timestamps, ∀ x ∈ us, u + r.window < x) :
    (runChecks r us).1 = List.replicate r.max_count true := by
  cases us with
  | nil =>
    rw [← hlen]
    rfl
  | cons x us' =>
    have hev : r.timestamps.dropWhile (fun u => u < x - r.window) = [] := by
      apply dropWhile_eq_nil_of_all
      intro u hu
      have hx := hadv u hu x (List.mem_cons_self x us')
      simp only [decide_eq_true_eq]
      omega
    have h1 : r.evict x = RateLimiter.mk r.window r.max_count [] := by
      unfold RateLimiter.evict
      rw [hev]
    have h2 : r.check x = (RateLimiter.mk r.window r.max_count []).check x := by
      unfold RateLimiter.check
      dsimp only
      rw [h1]
      rfl
    have h3 : (runChecks r (x :: us')).1 =
        (runChecks (RateLimiter.mk r.window r.max_count []) (x :: us')).1 := by
      show (r.check x).1 :: (runChecks (r.check x).2 us').1 = _
      rw [h2]
      rfl
    rw [h3]
    have hall := runChecks_all_admitted (x :: us')
      (RateLimiter.mk r.window r.max_count [])
      (by intro t ht u hu; exact absurd hu (List.not_mem_nil u))
      hwin
      (by simp [hlen])
    rw [hall.1, hlen]

theorem runChecks_length_le : ∀ (ts : List Nat) (r : RateLimiter),
    r.timestamps.length ≤ r.max_count →
    (runChecks r ts).2.timestamps.length ≤ (runChecks r ts).2.max_count
  | [], _, h => h
  | t :: ts, r, h => by
    have hstep : (r.check t).2.timestamps.length ≤ (r.check t).2.max_count := by
      obtain ⟨hb, hts, hw, hN⟩ := check_spec r t
      rw [hts, hN]
      have hsub : (r.evict t).timestamps.length ≤ r.timestamps.length :=
        List.Sublist.length_le (List.dropWhile_sublist _)
      by_cases hc : (r.evict t).timestamps.length < r.max_count
      · rw [if_pos hc]
        simp only [List.length_append, List.length_cons, List.length_nil]
        omega
      · rw [if_neg hc, List.append_nil]
        omega
    show (runChecks (r.check t).2 ts).2.timestamps.length ≤
      (runChecks (r.check t).2 ts).2.max_count
    exact runChecks_length_le ts (r.check t).2 hstep

/-- After a sorted run, the store holds exactly the admitted instants
still inside the window anchored at the last event. -/
theorem run_final_timestamps : ∀ (ts : List Nat) (r : RateLimiter) (L : Nat),
    ts.getLast? = some L →
    List.Sorted (· ≤ ·) ts →
    List.Sorted (· ≤ ·) r.timestamps →
    (∀ u ∈ r.timestamps, ∀ t ∈ ts, u ≤ t) →
    (runChecks r ts).2.timestamps =
      (r.timestamps ++ admittedTimes ts (runChecks r ts).1).filter
        (fun u => L - r.window ≤ u)
  | [], _, _, hL, _, _, _ => Option.noConfusion hL
  | [t], r, L, hL, _, hst, _ => by
    rw [List.getLast?_singleton] at hL
    injection hL with hL
    subst hL
    show (r.check t).2.timestamps =
      (r.timestamps ++ admittedTimes [t] [(r.check t).1]).filter
        (fun u => t - r.window ≤ u)
    rw [check_timestamps, admittedTimes_cons]
    have hevf : (r.evict t).timestamps
        = r.timestamps.filter (fun u => t - r.window ≤ u) :=
      dropWhile_lt_eq_filter_of_sorted r.timestamps (t - r.window) hst
    rw [hevf, List.filter_append]
    congr 1
    cases hb : (r.check t).1
    · simp [admittedTimes]
    · simp [admittedTimes, Nat.sub_le]
  | t :: t' :: ts'', r, L, hL, hsort, hst, hle => by
    rw [List.getLast?_cons_cons] at hL
    obtain ⟨hb, hts2, hw, hN⟩ := check_spec r t
    have hsort' := (List.sorted_cons.mp hsort).2
    have hts_head := (List.sorted_cons.mp hsort).1
    have hevf : (r.evict t).timestamps
        = r.timestamps.filter (fun u => t - r.window ≤ u) :=
      dropWhile_lt_eq_filter_of_sorted r.timestamps (t - r.window) hst
    have hct := check_timestamps r t
    have hsorted_new : List.Sorted (· ≤ ·) (r.check t).2.timestamps := by
      rw [hct, hevf]
      apply List.pairwise_append.mpr
      refine ⟨hst.filter _, ?_, ?_⟩
      · cases hbb : (r.check t).1 <;> simp
      · intro a ha b hbmem
        cases hbb : (r.check t).1
        · rw [hbb] at hbmem
          simp at hbmem
        · rw [hbb] at hbmem
          simp at hbmem
          rw [hbmem]
          exact hle a (List.mem_of_mem_filter ha) t (List.mem_cons_self t (t' :: ts''))
    have hle' : ∀ u ∈ (r.check t).2.timestamps, ∀ x ∈ t' :: ts'', u ≤ x := by
      rw [hct, hevf]
      intro u hu x hx
      rcases List.mem_append.mp hu with hu | hu
      · exact hle u (List.mem_of_mem_filter hu) x (List.mem_cons_of_mem t hx)
      · cases hbb : (r.check t).1
        · rw [hbb] at hu
          simp at hu
        · rw [hbb] at hu
          simp at hu
          subst hu
          exact hts_head x hx
    have ih := run_final_timestamps (t' :: ts'') (r.check t).2 L hL hsort' hsorted_new hle'
    show (runChecks (r.check t).2 (t' :: ts'')).2.timestamps =
      (r.timestamps ++ admittedTimes (t :: t' :: ts'')
        ((r.check t).1 :: (runChecks (r.check t).2 (t' :: ts'')).1)).filter
        (fun u => L - r.window ≤ u)
    rw [ih, hw, hct, hevf, admittedTimes_cons]
    have htL : t ≤ L := hts_head L (List.mem_of_getLast?_eq_some hL)
    rw [List.append_assoc, List.filter_append, List.filter_append,
      filter_le_absorb r.timestamps (show t - r.window ≤ L - r.window by omega)]
    simp [List.filter_append]

/-- Remaining capacity plus admitted-in-window equals the capacity, for
any sorted run from a fresh limiter. -/
theorem remaining_plus_admitted (N W : Nat) (ts : List Nat) (L : Nat)
    (hL : ts.getLast? = some L) (hsort : List.Sorted (· ≤ ·) ts) :
    (runChecks (RateLimiter.new N W) ts).2.remaining +
      ((admittedTimes ts (runChecks (RateLimiter.new N W) ts).1).filter
        (fun u => L - W ≤ u)).length = N := by
  have hfin := run_final_timestamps ts (RateLimiter.new N W) L hL hsort
    (by simp [RateLimiter.new])
    (by
      intro u hu
      simp [RateLimiter.new] at hu)
  have hlen := runChecks_length_le ts (RateLimiter.new N W)
    (by simp [RateLimiter.new])
  obtain ⟨hw, hN⟩ := runChecks_window ts (RateLimiter.new N W)
  unfold RateLimiter.remaining
  rw [hN]
  rw [hfin] at hlen ⊢
  rw [hN] at hlen
  simp only [RateLimiter.new, List.nil_append] at hlen ⊢
  omega

/-- C4: the rate-limiter contract.  (1) A check admits iff the
post-eviction count is strictly below capacity, appending the current
instant exactly on admit; (2) from a fresh limiter, the `(N+1)`-th check
within one window is denied (the first `N` admitted); (3) once the
window has fully elapsed past every stored timestamp, a fresh batch of
`N` events is admitted; (4) `remaining()` plus the number of admissions
inside the current window equals `N`. -/
theorem rate_limiter_contract (N W : Nat) :
    (∀ (r : RateLimiter) (now : Nat), r.max_count = N → r.window = W →
      (((r.check now).1 = true ↔ (r.evict now).timestamps.length < N) ∧
        (r.check now).2.timestamps = (r.evict now).timestamps ++
          (if (r.check now).1 then [now] else []))) ∧
    (∀ (ts : List Nat) (tl : Nat), ts.length = N →
      (∀ t ∈ ts ++ [tl], ∀ u ∈ ts ++ [tl], t ≤ u + W) →
      (runChecks (RateLimiter.new N W) (ts ++ [tl])).1
        = List.replicate N true ++ [false]) ∧
    (∀ (r : RateLimiter) (us : List Nat), r.max_count = N → r.window = W →
      us.length = N → (∀ t ∈ us, ∀ u ∈ us, t ≤ u + W) →
      (∀ u ∈ r.timestamps, ∀ x ∈ us, u + W < x) →
      (runChecks r us).1 = List.replicate N true) ∧
    (∀ (ts : List Nat) (L : Nat), ts.getLast? = some L → List.Sorted (· ≤ ·) ts →
      (runChecks (RateLimiter.new N W) ts).2.remaining +
        ((admittedTimes ts (runChecks (RateLimiter.new N W) ts).1).filter
          (fun u => L - W ≤ u)).length = N) := by
  refine ⟨?_, ?_, ?_, ?_⟩
  · intro r now hmc _
    subst hmc
    refine ⟨?_, check_timestamps r now⟩
    rw [(check_spec r now).1]
    exact decide_eq_true_iff
  · intro ts tl hlen hwin
    exact over_capacity_denied N W ts tl hlen hwin
  · intro r us hmc hw hlen hwin hadv
    subst hmc
    subst hw
    exact fresh_after_window r us hlen hwin hadv
  · intro ts L hL hsort
    exact remaining_plus_admitted N W ts L hL hsort

/-- Witness for C4 with `N = 2`, `W = 10`, concrete event sequences. -/
theorem rate_limiter_contract_witness :
    (((RateLimiter.new 2 10).check 5).1 = true ↔
      ((RateLimiter.new 2 10).evict 5).timestamps.length < 2) ∧
    (runChecks (RateLimiter.new 2 10) ([0, 1] ++ [2])).1
      = List.replicate 2 true ++ [false] ∧
    (runChecks (RateLimiter.mk 10 2 [0, 1]) [13, 14]).1 = List.replicate 2 true ∧
    (runChecks (RateLimiter.new 2 10) [0, 1, 2]).2.remaining +
      ((admittedTimes [0, 1, 2] (runChecks (RateLimiter.new 2 10) [0, 1, 2]).1).filter
        (fun u => 2 - 10 ≤ u)).length = 2 := by
  obtain ⟨h1, h2, h3, h4⟩ := rate_limiter_contract 2 10
  exact ⟨(h1 (RateLimiter.new 2 10) 5 rfl rfl).1,
    h2 [0, 1] 2 (by decide) (by decide),
    h3 (RateLimiter.mk 10 2 [0, 1]) [13, 14] rfl rfl rfl (by decide) (by decide),
    h4 [0, 1, 2] 2 (by decide) (by decide)⟩

/-! ## Association-list lemmas (for claims C5 and C10) -/

theorem alistLookup_insert_self {α β : Type} [DecidableEq α] (k : α) (v : β) :
    ∀ (l : List (α × β)), alistLookup k (alistInsert k v l) = some v
  | [] => by simp [alistInsert, alistLookup]
  | (a, b) :: l => by
    by_cases h : k = a
    · simp [alistInsert, alistLookup, h]
    · simp only [alistInsert, alistLookup, if_neg h]
      exact alistLookup_insert_self k v l

theorem alistLookup_insert_ne {α β : Type} [DecidableEq α] {k k' : α} (v : β)
    (h : k' ≠ k) : ∀ (l : List (α × β)),
    alistLookup k' (alistInsert k v l) = alistLookup k' l
  | [] => by simp [alistInsert, alistLookup, h]
  | (a, b) :: l => by
    by_cases hka : k = a
    · subst hka
      simp [alistInsert, alistLookup, h]
    · simp only [alistInsert, if_neg hka, alistLookup]
      by_cases hk'a : k' = a
      · simp [hk'a]
      · simp only [if_neg hk'a]
        exact alistLookup_insert_ne v h l

theorem alistLookup_none_iff {α β : Type} [DecidableEq α] (k : α) :
    ∀ (l : List (α × β)), alistLookup k l = none ↔ k ∉ l.map Prod.fst
  | [] => by simp [alistLookup]
  | (a, b) :: l => by
    by_cases h : k = a
    · simp [alistLookup, h]
    · simp only [alistLookup, if_neg h, List.map_cons, List.mem_cons]
      rw [alistLookup_none_iff k l]
      simp [h]

theorem alistInsert_of_lookup_none {α β : Type} [DecidableEq α] {k : α} (v : β) :
    ∀ {l : List (α × β)}, alistLookup k l = none → alistInsert k v l = l ++ [(k, v)]
  | [], _ => rfl
  | (a, b) :: l, h => by
    by_cases hka : k = a
    · simp [alistLookup, hka] at h
    · simp only [alistLookup, if_neg hka] at h
      simp only [alistInsert, if_neg hka, List.cons_append]
      rw [alistInsert_of_lookup_none v h]

theorem mem_keys_alistInsert {α β : Type} [DecidableEq α] {x k : α} (v : β) :
    ∀ (l : List (α × β)),
    x ∈ (alistInsert k v l).map Prod.fst ↔ x = k ∨ x ∈ l.map Prod.fst
  | [] => by simp [alistInsert]
  | (a, b) :: l => by
    by_cases hka : k = a
    · subst hka
      simp [alistInsert]
    · simp only [alistInsert, if_neg hka, List.map_cons, List.mem_cons]
      rw [mem_keys_alistInsert v l]
      tauto

theorem nodup_keys_alistInsert {α β : Type} [DecidableEq α] (k : α) (v : β) :
    ∀ {l : List (α × β)}, (l.map Prod.fst).Nodup →
    ((alistInsert k v l).map Prod.fst).Nodup
  | [], _ => by simp [alistInsert]
  | (a, b) :: l, h => by
    simp only [List.map_cons, List.nodup_cons] at h
    by_cases hka : k = a
    · subst hka
      simpa [alistInsert, List.nodup_cons] using h
    · simp only [alistInsert, if_neg hka, List.map_cons, List.nodup_cons]
      refine ⟨?_, nodup_keys_alistInsert k v h.2⟩
      rw [mem_keys_alistInsert]
      rintro (rfl | hmem)
      · exact hka rfl
      · exact h.1 hmem

theorem alistLookup_remove_ne {α β : Type} [DecidableEq α] {k k' : α} (h : k' ≠ k) :
    ∀ (l : List (α × β)), alistLookup k' (alistRemove k l) = alistLookup k' l
  | [] => rfl
  | (a, b) :: l => by
    by_cases hka : k = a
    · subst hka
      simp [alistRemove, alistLookup, h]
    · simp only [alistRemove, if_neg hka, alistLookup]
      by_cases hk'a : k' = a
      · simp [hk'a]
      · simp only [if_neg hk'a]
        exact alistLookup_remove_ne h l

theorem alistLookup_remove_self {α β : Type} [DecidableEq α] (k : α) :
    ∀ {l : List (α × β)}, (l.map Prod.fst).Nodup →
    alistLookup k (alistRemove k l) = none
  | [], _ => rfl
  | (a, b) :: l, h => by
    simp only [List.map_cons, List.nodup_cons] at h
    by_cases hka : k = a
    · subst hka
      simp only [alistRemove, if_pos rfl]
      exact (alistLookup_none_iff k l).mpr h.1
    · simp only [alistRemove, if_neg hka, alistLookup, if_neg hka]
      exact alistLookup_remove_self k h.2

theorem keys_alistRemove_sublist {α β : Type} [DecidableEq α] (k : α) :
    ∀ (l : List (α × β)), List.Sublist ((alistRemove k l).map Prod.fst) (l.map Prod.fst)
  | [] => List.Sublist.refl _
  | (a, b) :: l => by
    by_cases hka : k = a
    · simp only [alistRemove, if_pos hka, List.map_cons]
      exact List.sublist_cons_self _ _
    · simp only [alistRemove, if_neg hka, List.map_cons]
      exact List.Sublist.cons₂ _ (keys_alistRemove_sublist k l)

theorem nodup_keys_alistRemove {α β : Type} [DecidableEq α] (k : α)
    {l : List (α × β)} (h : (l.map Prod.fst).Nodup) :
    ((alistRemove k l).map Prod.fst).Nodup :=
  h.sublist (keys_alistRemove_sublist k l)

theorem filter_length_alistRemove {α β : Type} [DecidableEq α] {k : α} {v : β} :
    ∀ {l : List (α × β)}, (l.map Prod.fst).Nodup → alistLookup k l = some v →
    ∀ (P : α × β → Bool),
    ((alistRemove k l).filter P).length + (if P (k, v) then 1 else 0)
      = (l.filter P).length
  | [], _, hlook, _ => Option.noConfusion hlook
  | (a, b) :: l, h, hlook, P => by
    simp only [List.map_cons, List.nodup_cons] at h
    by_cases hka : k = a
    · subst hka
      simp only [alistLookup, if_pos rfl] at hlook
      injection hlook with hlook
      rw [← hlook]
      simp only [alistRemove, if_pos rfl, List.filter_cons]
      by_cases hP : P (k, b)
      · simp [hP]
      · simp [hP]
    · simp only [alistLookup, if_neg hka] at hlook
      simp only [alistRemove, if_neg hka, List.filter_cons]
      by_cases hP : P (a, b)
      · rw [if_pos hP, if_pos hP]
        have hrec := filter_length_alistRemove h.2 hlook P
        simp only [List.length_cons]
        omega
      · rw [if_neg hP, if_neg hP]
        exact filter_length_alistRemove h.2 hlook P

theorem nodup_append_singleton {α : Type} {l : List α} {a : α}
    (h : l.Nodup) (ha : a ∉ l) : (l ++ [a]).Nodup := by
  rw [List.nodup_append]
  refine ⟨h, List.nodup_singleton a, ?_⟩
  intro x hx hxa
  rw [List.mem_singleton] at hxa
  exact ha (hxa ▸ hx)

/-! ## Session-registry invariant (claims C5 and C10) -/

theorem Session_new_id (id : String) (ip now a b : Nat) :
    (Session.new id ip now a b).id = id := rfl

theorem Session_clone_ip (id : String) (ip now a b : Nat) :
    (Session.new id ip now a b).clone.ip = ip := rfl

/-- Well-formedness carried through every operation: count coherence
plus distinct keys in both maps. -/
def SMInv (m : SessionManager) : Prop :=
  ipInv m ∧ (m.sessions.map Prod.fst).Nodup ∧ (m.ip_counts.map Prod.fst).Nodup

/-- The three executions of `create_session`: global-cap rejection,
per-IP rejection (which still materialises the `or_insert(0)` entry),
and admission. -/
theorem create_session_cases (m : SessionManager) (ip : Nat) (newId : String) (now : Nat) :
    (m.max_total ≤ m.sessions.length ∧ m.create_session ip newId now = (none, m)) ∨
    (m.sessions.length < m.max_total ∧
      m.max_per_ip ≤ (alistLookup ip m.ip_counts).getD 0 ∧
      m.create_session ip newId now = (none,
        { m with ip_counts :=
            alistInsert ip ((alistLookup ip m.ip_counts).getD 0) m.ip_counts })) ∨
    (m.sessions.length < m.max_total ∧
      (alistLookup ip m.ip_counts).getD 0 < m.max_per_ip ∧
      m.create_session ip newId now =
        (some (Session.new newId ip now m.messages_per_second m.submits_per_minute),
          { m with
            sessions := alistInsert newId
              (Session.new newId ip now m.messages_per_second m.submits_per_minute).clone
              m.sessions,
            ip_counts := alistInsert ip ((alistLookup ip m.ip_counts).getD 0 + 1)
              (alistInsert ip ((alistLookup ip m.ip_counts).getD 0) m.ip_counts) })) := by
  unfold SessionManager.create_session
  by_cases h1 : m.sessions.length ≥ m.max_total
  · left
    exact ⟨h1, by rw [if_pos h1]⟩
  · right
    by_cases h2 : (alistLookup ip m.ip_counts).getD 0 ≥ m.max_per_ip
    · left
      refine ⟨by omega, h2, ?_⟩
      rw [if_neg h1]
      dsimp only
      rw [if_pos h2]
    · right
      refine ⟨by omega, by omega, ?_⟩
      rw [if_neg h1]
      dsimp only
      rw [if_neg h2]
      rfl

/-- The executions of `remove_session`: absent id is a no-op; present id
removes the session and either drops or decrements the ip entry. -/
theorem remove_session_cases (m : SessionManager) (id : String) :
    (alistLookup id m.sessions = none ∧ m.remove_session id = m) ∨
    (∃ s, alistLookup id m.sessions = some s ∧
      (((alistLookup s.ip m.ip_counts).getD 0 - 1 = 0 ∧
        m.remove_session id = { m with
          sessions := alistRemove id m.sessions,
          ip_counts := alistRemove s.ip m.ip_counts }) ∨
       ((alistLookup s.ip m.ip_counts).getD 0 - 1 ≠ 0 ∧
        m.remove_session id = { m with
          sessions := alistRemove id m.sessions,
          ip_counts := alistInsert s.ip ((alistLookup s.ip m.ip_counts).getD 0 - 1)
            m.ip_counts }))) := by
  cases hlook : alistLookup id m.sessions with
  | none =>
    left
    refine ⟨rfl, ?_⟩
    unfold SessionManager.remove_session
    rw [hlook]
  | some s =>
    right
    refine ⟨s, rfl, ?_⟩
    by_cases hz : (alistLookup s.ip m.ip_counts).getD 0 - 1 = 0
    · left
      refine ⟨hz, ?_⟩
      unfold SessionManager.remove_session
      rw [hlook]
      dsimp only
      rw [if_pos hz]
    · right
      refine ⟨hz, ?_⟩
      unfold SessionManager.remove_session
      rw [hlook]
      dsimp only
      rw [if_neg hz]

theorem filter_ip_append_one (sess : List (String × Session)) (e : String × Session)
    (ip : Nat) :
    ((sess ++ [e]).filter (fun p => p.2.ip = ip)).length
      = (sess.filter (fun p => p.2.ip = ip)).length + (if e.2.ip = ip then 1 else 0) := by
  rw [List.filter_append]
  by_cases h : e.2.ip = ip <;> simp [List.filter_cons, h]

theorem create_session_preserves (m : SessionManager) (ip : Nat) (newId : String)
    (now : Nat) (h : SMInv m) (hfresh : alistLookup newId m.sessions = none) :
    SMInv (m.create_session ip newId now).2 := by
  obtain ⟨hinv, hnodS, hnodI⟩ := h
  rcases create_session_cases m ip newId now with ⟨_, heq⟩ | ⟨_, _, heq⟩ | ⟨_, hlt, heq⟩
  · rw [heq]
    exact ⟨hinv, hnodS, hnodI⟩
  · rw [heq]
    refine ⟨?_, hnodS, nodup_keys_alistInsert ip _ hnodI⟩
    intro ip'
    by_cases hip : ip' = ip
    · subst hip
      show (alistLookup ip' (alistInsert ip' ((alistLookup ip' m.ip_counts).getD 0)
        m.ip_counts)).getD 0 = ipLiveCount m ip'
      rw [alistLookup_insert_self]
      exact hinv ip'
    · show (alistLookup ip' (alistInsert ip ((alistLookup ip m.ip_counts).getD 0)
        m.ip_counts)).getD 0 = ipLiveCount m ip'
      rw [alistLookup_insert_ne _ hip]
      exact hinv ip'
  · rw [heq]
    have hins : alistInsert newId
        (Session.new newId ip now m.messages_per_second m.submits_per_minute).clone
        m.sessions
        = m.sessions ++ [(newId,
          (Session.new newId ip now m.messages_per_second m.submits_per_minute).clone)] :=
      alistInsert_of_lookup_none _ hfresh
    refine ⟨?_, ?_, nodup_keys_alistInsert ip _ (nodup_keys_alistInsert ip _ hnodI)⟩
    · intro ip'
      show (alistLookup ip' (alistInsert ip ((alistLookup ip m.ip_counts).getD 0 + 1)
          (alistInsert ip ((alistLookup ip m.ip_counts).getD 0) m.ip_counts))).getD 0
        = ((alistInsert newId
            (Session.new newId ip now m.messages_per_second m.submits_per_minute).clone
            m.sessions).filter (fun p => p.2.ip = ip')).length
      rw [hins, filter_ip_append_one]
      by_cases hip : ip' = ip
      · subst hip
        rw [alistLookup_insert_self]
        rw [if_pos (Session_clone_ip ..)]
        have hcur := hinv ip'
        show (alistLookup ip' m.ip_counts).getD 0 + 1 = _
        rw [hcur]
        rfl
      · rw [alistLookup_insert_ne _ hip, alistLookup_insert_ne _ hip]
        rw [if_neg (by
          show ¬ (Session.new newId ip now _ _).clone.ip = ip'
          rw [Session_clone_ip]
          exact fun hc => hip hc.symm)]
        have hcur := hinv ip'
        rw [Nat.add_zero]
        exact hcur
    · show ((alistInsert newId _ m.sessions).map Prod.fst).Nodup
      rw [hins, List.map_append]
      exact nodup_append_singleton hnodS ((alistLookup_none_iff newId m.sessions).mp hfresh)

theorem remove_session_preserves (m : SessionManager) (id : String) (h : SMInv m) :
    SMInv (m.remove_session id) := by
  obtain ⟨hinv, hnodS, hnodI⟩ := h
  rcases remove_session_cases m id with ⟨_, heq⟩ | ⟨s, hlook, hcase⟩
  · rw [heq]
    exact ⟨hinv, hnodS, hnodI⟩
  · have hlive : ∀ ip', ((alistRemove id m.sessions).filter (fun p => p.2.ip = ip')).length
        + (if s.ip = ip' then 1 else 0)
        = (m.sessions.filter (fun p => p.2.ip = ip')).length := by
      intro ip'
      have hc := filter_length_alistRemove (v := s) hnodS hlook (fun p => p.2.ip = ip')
      by_cases hip : s.ip = ip'
      · rw [if_pos hip]
        rw [if_pos (by simpa using hip)] at hc
        exact hc
      · rw [if_neg hip]
        rw [if_neg (by simpa using hip)] at hc
        simpa using hc
    have hnodS' : ((alistRemove id m.sessions).map Prod.fst).Nodup :=
      nodup_keys_alistRemove id hnodS
    rcases hcase with ⟨hz, heq⟩ | ⟨hz, heq⟩
    · rw [heq]
      refine ⟨?_, hnodS', nodup_keys_alistRemove s.ip hnodI⟩
      intro ip'
      show (alistLookup ip' (alistRemove s.ip m.ip_counts)).getD 0
        = ((alistRemove id m.sessions).filter (fun p => p.2.ip = ip')).length
      by_cases hip : ip' = s.ip
      · subst hip
        rw [alistLookup_remove_self _ hnodI]
        have h1 := hlive s.ip
        rw [if_pos rfl] at h1
        have h2 : (alistLookup s.ip m.ip_counts).getD 0
            = (m.sessions.filter (fun p => p.2.ip = s.ip)).length := hinv s.ip
        show 0 = _
        omega
      · rw [alistLookup_remove_ne (by exact fun hc => hip hc)]
        have h1 := hlive ip'
        rw [if_neg (fun hc => hip hc.symm)] at h1
        have h2 : (alistLookup ip' m.ip_counts).getD 0
            = (m.sessions.filter (fun p => p.2.ip = ip')).length := hinv ip'
        show (alistLookup ip' m.ip_counts).getD 0 = _
        omega
    · rw [heq]
      refine ⟨?_, hnodS', nodup_keys_alistInsert s.ip _ hnodI⟩
      intro ip'
      show (alistLookup ip' (alistInsert s.ip ((alistLookup s.ip m.ip_counts).getD 0 - 1)
          m.ip_counts)).getD 0
        = ((alistRemove id m.sessions).filter (fun p => p.2.ip = ip')).length
      by_cases hip : ip' = s.ip
      · subst hip
        rw [alistLookup_insert_self]
        have h1 := hlive s.ip
        rw [if_pos rfl] at h1
        have h2 : (alistLookup s.ip m.ip_counts).getD 0
            = (m.sessions.filter (fun p => p.2.ip = s.ip)).length := hinv s.ip
        show (alistLookup s.ip m.ip_counts).getD 0 - 1 = _
        omega
      · rw [alistLookup_insert_ne _ hip]
        have h1 := hlive ip'
        rw [if_neg (fun hc => hip hc.symm)] at h1
        have h2 : (alistLookup ip' m.ip_counts).getD 0
            = (m.sessions.filter (fun p => p.2.ip = ip')).length := hinv ip'
        show (alistLookup ip' m.ip_counts).getD 0 = _
        omega

theorem foldl_remove_preserves : ∀ (ids : List String) (m : SessionManager),
    SMInv m → SMInv (ids.foldl (fun acc id => acc.remove_session id) m)
  | [], _, h => h
  | id :: ids, m, h => by
    show SMInv (ids.foldl (fun acc id => acc.remove_session id) (m.remove_session id))
    exact foldl_remove_preserves ids (m.remove_session id)
      (remove_session_preserves m id h)

theorem cleanup_idle_preserves (m : SessionManager) (now max_idle : Nat)
    (h : SMInv m) : SMInv (m.cleanup_idle now max_idle) := by
  unfold SessionManager.cleanup_idle
  exact foldl_remove_preserves _ m h

/-- Reachable `SessionManager` states: the empty registry closed under
the three operations, with `create_session` always handed a fresh UUID
(the defining property of v4 UUID generation). -/
inductive SMReachable : SessionManager → Prop where
  | empty (max_per_ip max_total mps spm : Nat) :
      SMReachable (SessionManager.new max_per_ip max_total mps spm)
  | create {m : SessionManager} (ip : Nat) (newId : String) (now : Nat) :
      SMReachable m → alistLookup newId m.sessions = none →
      SMReachable (m.create_session ip newId now).2
  | remove {m : SessionManager} (id : String) :
      SMReachable m → SMReachable (m.remove_session id)
  | cleanup {m : SessionManager} (now max_idle : Nat) :
      SMReachable m → SMReachable (m.cleanup_idle now max_idle)

theorem SMReachable_inv {m : SessionManager} (h : SMReachable m) : SMInv m := by
  induction h with
  | empty a b c d =>
    refine ⟨fun ip => rfl, ?_, ?_⟩ <;> simp [SessionManager.new]
  | create ip newId now _ hfresh ih =>
    exact create_session_preserves _ ip newId now ih hfresh
  | remove id _ ih =>
    exact remove_session_preserves _ id ih
  | cleanup now max_idle _ ih =>
    exact cleanup_idle_preserves _ now max_idle ih

/-- C10: from the empty registry, after any finite sequence of
`create_session` (with fresh UUIDs), `remove_session`, and
`cleanup_idle`, the stored ip-count (0 when the entry is absent) equals
the number of live sessions from that address, for every address; and
`remove_session` of an absent id changes neither map. -/
theorem session_registry_count_coherence :
    (∀ m : SessionManager, SMReachable m → ipInv m) ∧
    (∀ (m : SessionManager) (id : String), alistLookup id m.sessions = none →
      m.remove_session id = m) := by
  constructor
  · intro m h
    exact (SMReachable_inv h).1
  · intro m id hlook
    unfold SessionManager.remove_session
    rw [hlook]

/-- Witness for C10: the state after one `create_session` on the empty
registry, and a `remove_session` of an id absent from it. -/
theorem session_registry_count_coherence_witness :
    ipInv ((SessionManager.new 2 10 5 7).create_session 3 "a" 0).2 ∧
    (SessionManager.new 2 10 5 7).remove_session "zz" = SessionManager.new 2 10 5 7 := by
  constructor
  · exact session_registry_count_coherence.1 _
      (SMReachable.create 3 "a" 0 (SMReachable.empty 2 10 5 7) rfl)
  · exact session_registry_count_coherence.2 _ "zz" rfl

/-- C5: on a registry whose ip-counts agree with the live sessions,
`create_session` returns `Some` iff the live total is below `max_total`
and the live count from the caller's address is below `max_per_ip`; a
denied call leaves the session map untouched. -/
theorem create_session_caps (m : SessionManager) (ip : Nat) (newId : String)
    (now : Nat) (hinv : ipInv m) :
    ((m.create_session ip newId now).1.isSome ↔
      m.sessions.length < m.max_total ∧ ipLiveCount m ip < m.max_per_ip) ∧
    ((m.create_session ip newId now).1 = none →
      (m.create_session ip newId now).2.sessions = m.sessions) := by
  have hc := hinv ip
  rcases create_session_cases m ip newId now with
    ⟨hge, heq⟩ | ⟨hlt, hge, heq⟩ | ⟨hlt1, hlt2, heq⟩
  · rw [heq]
    refine ⟨?_, fun _ => rfl⟩
    constructor
    · intro hs
      simp at hs
    · rintro ⟨h1, _⟩
      exact ((by omega : False)).elim
  · rw [heq]
    refine ⟨?_, fun _ => rfl⟩
    constructor
    · intro hs
      simp at hs
    · rintro ⟨_, h2⟩
      exact ((by omega : False)).elim
  · rw [heq]
    constructor
    · constructor
      · intro _
        exact ⟨hlt1, by omega⟩
      · intro _
        rfl
    · intro hnone
      exact Option.noConfusion hnone

/-- Witness for C5 on the empty registry with caps 2 per IP, 10 total. -/
theorem create_session_caps_witness :
    (((SessionManager.new 2 10 5 7).create_session 3 "a" 0).1.isSome ↔
      (SessionManager.new 2 10 5 7).sessions.length
          < (SessionManager.new 2 10 5 7).max_total ∧
        ipLiveCount (SessionManager.new 2 10 5 7) 3
          < (SessionManager.new 2 10 5 7).max_per_ip) ∧
    (((SessionManager.new 2 10 5 7).create_session 3 "a" 0).1 = none →
      ((SessionManager.new 2 10 5 7).create_session 3 "a" 0).2.sessions
        = (SessionManager.new 2 10 5 7).sessions) :=
  create_session_caps (SessionManager.new 2 10 5 7) 3 "a" 0 (fun _ => rfl)
